import Mathlib

/-!
Verification of the lint runner `run_linters.py`.

A shallow embedding of `test_scripts/run_linters.py` and proofs about it.

The script discovers C++ source files under a source root (excluding the
configured `third_party` sub-directory), runs `clang-tidy` over the `.cpp`
files and `clang-format` over the `.cpp` and `.hpp` files, collects the
non-empty diagnostic outputs, prints them, and exits with code 0 exactly
when no diagnostic was produced.

The external world (the directory tree, file contents, and the behaviour of
the two checker binaries and of the standard library functions the script
calls) is modelled by an explicit `World` record; the script's own logic is
translated function by function from the Python source.
-/

namespace RunLinters

/-- A node of the directory tree below the source root `_SRC_DIR`: either a
plain file or a directory with a list of child nodes.  Only the names matter
for discovery; file contents live in `World.content0`. -/
inductive FSNode where
  | file (name : String)
  | dir (name : String) (children : List FSNode)

/-- The name of a node (the last path component). -/
def FSNode.name : FSNode → String
  | .file n => n
  | .dir n _ => n

/-- Whether the node is a directory (`Path.is_dir()`). -/
def FSNode.isDir : FSNode → Bool
  | .file _ => false
  | .dir _ _ => true

/-- Children of a node (empty for a plain file). -/
def FSNode.children : FSNode → List FSNode
  | .file _ => []
  | .dir _ cs => cs

/-- A path relative to the source root, as a list of components. -/
abbrev Path := List String

/-- One line-list of file content, as returned by `readlines()`. -/
abbrev Content := List String

/-- Whether `name` matches the glob pattern `*{file_ext}` used by
`collect_sources`: the pattern matches exactly the entry names that end with
`file_ext` (character-wise suffix match, as `fnmatch` does for a leading
`*`). -/
def extMatches (file_ext name : String) : Bool :=
  file_ext.data.isSuffixOf name.data

mutual

/-- All entries of the subtree rooted at a node, each with its path relative
to the node's parent (so the node itself appears with the one-component path
`[its name]`).  `entriesOf d` for a directory `d` is what `d`'s parent sees
of `d` through a recursive glob. -/
def entriesOf : FSNode → List (Path × FSNode)
  | .file n => [([n], .file n)]
  | .dir n cs => ([n], .dir n cs) :: (forestEntries cs).map (fun x => (n :: x.1, x.2))

/-- All entries anywhere below a list of sibling nodes, with their relative
paths.  `forestEntries d.children` is exactly the set of entries the
recursive glob `d.glob("**/*")` walks over (every proper descendant of
`d`). -/
def forestEntries : List FSNode → List (Path × FSNode)
  | [] => []
  | t :: ts => entriesOf t ++ forestEntries ts

end

/-- The constant `_EXCLUDE_DIRS` from the script. -/
def _EXCLUDE_DIRS : List String := ["third_party"]

/-- The function `collect_sources(file_ext)` from the script, as a function of the
directory tree below `_SRC_DIR`:

    files = []
    files.extend(_SRC_DIR.glob(f"*{file_ext}"))
    dirs = _SRC_DIR.glob("*")
    dirs = [d for d in dirs if d.is_dir() and d.name not in _EXCLUDE_DIRS]
    for dir in dirs:
        files.extend(dir.glob(f"**/*{file_ext}"))
    return files

`glob(f"*{file_ext}")` yields every top-level entry (file or directory)
whose name ends with `file_ext`; `dir.glob(f"**/*{file_ext}")` yields every
proper descendant of `dir` whose name ends with `file_ext`.  Paths are
returned relative to the source root. -/
def collect_sources (tree : List FSNode) (file_ext : String) : List Path :=
  let files := (tree.filter (fun e => extMatches file_ext e.name)).map (fun e => [e.name])
  let dirs := tree.filter (fun d => d.isDir && !(_EXCLUDE_DIRS.contains d.name))
  files ++ dirs.flatMap (fun d =>
    (forestEntries d.children).filterMap (fun x =>
      if extMatches file_ext x.2.name then some (d.name :: x.1) else none))

/-- Path resolution: `FoundAt ts p e` states that walking the path `p` down from the sibling
list `ts` reaches the entry `e`: the entry `e` lies at relative path `p`
under the root. -/
inductive FoundAt : List FSNode → Path → FSNode → Prop
  | here {ts : List FSNode} {e : FSNode} :
      e ∈ ts → FoundAt ts [e.name] e
  | deeper {ts : List FSNode} {n : String} {cs : List FSNode} {p : Path} {e : FSNode} :
      FSNode.dir n cs ∈ ts → FoundAt cs p e → FoundAt ts (n :: p) e

/-- The file-discovery output as the specification describes it (with
"files" read as "entries"): a path is discovered iff some entry with a
matching name lies at that path, and the path is either a single component
(directly under the root) or starts with the name of a non-excluded
immediate subdirectory. -/
def SpecDiscovered (ts : List FSNode) (file_ext : String) (p : Path) : Prop :=
  ∃ e, FoundAt ts p e ∧ extMatches file_ext e.name = true ∧
    ∀ n q, p = n :: q → q ≠ [] → n ∉ _EXCLUDE_DIRS

/-- The fields of a completed `subprocess.run(...)` the script looks at. -/
structure ProcResult where
  stdout : String
  stderr : String
  returncode : Int
deriving DecidableEq, Repr

/-- The external world of one run: the directory tree below `_SRC_DIR`, the
initial file contents, and the observable behaviour of the calls the script
makes that leave the process (reading a file, launching a checker binary,
and `difflib.context_diff`).  A checker launch is a function of the file,
the full command line and the file's current content; it either raises
(`Except.error`, e.g. the binary is missing) or completes with captured
output and a possibly rewritten file content.  `readErr` says whether
`open`/`readlines` on a file raises. -/
structure World where
  tree : List FSNode
  srcDir : String
  content0 : Path → Content
  readErr : Path → Option String
  tidyProc : Path → List String → Content → Except String (ProcResult × Content)
  fmtProc : Path → List String → Content → Except String (ProcResult × Content)
  diff : Content → Content → String → String → String

/-- The absolute path string of a source file (`_SRC_DIR / p`, as Python
formats it into the argument list and the warning line). -/
def absStr (w : World) (p : Path) : String :=
  w.srcDir ++ "/" ++ String.intercalate "/" p

/-- The string form of `src.relative_to(_SRC_DIR)` (`file_name` in the script). -/
def relStr (p : Path) : String :=
  String.intercalate "/" p

/-- The function `read_file(file_name)` from the script, i.e. `open(...).readlines()`.  Either
raises or returns the file's current content. -/
def read_file (w : World) (p : Path) (c : Content) : Except String Content :=
  match w.readErr p with
  | some e => .error e
  | none => .ok c

/-- The function `files_equal(a, b)` from the script: compare lengths, then every line by
index. -/
def files_equal (a b : Content) : Bool :=
  if a.length ≠ b.length then false
  else (List.range a.length).all (fun i => a.getD i "" == b.getD i "")

/-- The `clang-tidy` command line built by `clang_tidy`:
`["clang-tidy", "-p", build_path]`, then `"--fix"` when `fix` is set, then
the file. -/
def tidy_args (w : World) (build_path : String) (fix : Bool) (src : Path) : List String :=
  ["clang-tidy", "-p", build_path] ++ (if fix then ["--fix"] else []) ++ [absStr w src]

/-- The `clang-format` command line built by `clang_format`:
`["clang-format", "-Werror"]`, then `"-i"` when `fix` is set and
`"--dry-run"` otherwise, then the file. -/
def format_args (w : World) (fix : Bool) (src : Path) : List String :=
  ["clang-format", "-Werror"] ++ (if fix then ["-i"] else ["--dry-run"]) ++ [absStr w src]

/-- The function `clang_tidy(src, build_path, fix)` from the script: run the binary and
return its standard output; an exception from `subprocess.run` escapes.  The
second component threads the file's content (unchanged when the launch
raised). -/
def clang_tidy (w : World) (src : Path) (build_path : String) (fix : Bool) (c : Content) :
    Except String String × Content :=
  match w.tidyProc src (tidy_args w build_path fix src) c with
  | .error e => (.error e, c)
  | .ok (proc, c1) => (.ok proc.stdout, c1)

/-- The fixed text of the warning line `clang_format` emits (after the
absolute file path) when the file content changed. -/
def formatWarning : String := ": warning: code was clang-formatted:\n"

/-- The function `clang_format(src, fix)` from the script: read the file, run the binary,
re-read the file; start from the captured standard error and, when the
content changed, append (after a separating newline if stderr was
non-empty) the warning line and the context diff of before/after.  An
exception from either read or from the launch escapes. -/
def clang_format (w : World) (src : Path) (fix : Bool) (c : Content) :
    Except String String × Content :=
  match read_file w src c with
  | .error e => (.error e, c)
  | .ok before =>
    match w.fmtProc src (format_args w fix src) c with
    | .error e => (.error e, c)
    | .ok (proc, c1) =>
      match read_file w src c1 with
      | .error e => (.error e, c1)
      | .ok after =>
        let result := proc.stderr
        let result :=
          if !files_equal after before then
            (if result ≠ "" then result ++ "\n" else result)
              ++ absStr w src ++ formatWarning
              ++ w.diff before after (relStr src) (relStr src)
          else result
        (.ok result, c1)

/-- One pool phase: apply the task to every source in submission order,
threading file contents (each task reads and possibly rewrites only its own
file, as the concurrency model guarantees).  Returns the per-task results
paired with their sources, in submission order, plus the final contents —
`pool.apply_async` over `sources` followed by `close`/`join`. -/
def run_phase (task : Path → Content → Except String String × Content) :
    List Path → (Path → Content) → List (Path × Except String String) × (Path → Content)
  | [], st => ([], st)
  | src :: rest, st =>
    let r := task src (st src)
    let st1 : Path → Content := fun p => if p = src then r.2 else st p
    let res := run_phase task rest st1
    ((src, r.1) :: res.1, res.2)

/-- The collection `[r.get() for r in results if r.get()]` from the script: walk the async
results in submission order; re-raise the first stored exception, otherwise
keep exactly the non-empty outputs. -/
def collect_results : List (Path × Except String String) → Except String (List String)
  | [] => .ok []
  | (_, r) :: rs =>
    match r with
    | .error e => .error e
    | .ok v =>
      match collect_results rs with
      | .error e => .error e
      | .ok rest => .ok (if v ≠ "" then v :: rest else rest)

/-- The function `run_clang_tidy(build_path, fix)` from the script, started from file
contents `st`: one `clang_tidy` task per discovered `.cpp` file, then the
filtered result collection (which re-raises a stored task exception). -/
def run_clang_tidy (w : World) (build_path : String) (fix : Bool) (st : Path → Content) :
    Except String (List String) × (Path → Content) :=
  let sources := collect_sources w.tree ".cpp"
  let ph := run_phase (fun src c => clang_tidy w src build_path fix c) sources st
  (collect_results ph.1, ph.2)

/-- The function `run_clang_format(fix)` from the script, started from file contents
`st`: one `clang_format` task per discovered `.cpp` file and then per
discovered `.hpp` file, then the filtered result collection. -/
def run_clang_format (w : World) (fix : Bool) (st : Path → Content) :
    Except String (List String) × (Path → Content) :=
  let sources := collect_sources w.tree ".cpp" ++ collect_sources w.tree ".hpp"
  let ph := run_phase (fun src c => clang_format w src fix c) sources st
  (collect_results ph.1, ph.2)

/-- The function `run_linters(build_path, fix)` from the script: the tidy phase over the
initial contents, then (if collecting the tidy results did not raise) the
format phase; `all_ok` is true exactly when the concatenated error list is
empty, and that list is what the error banner prints.  An uncaught
exception from either collection escapes `run_linters` before the later
work runs. -/
def run_linters (w : World) (build_path : String) (fix : Bool) :
    Except String (Bool × List String) × (Path → Content) :=
  let t := run_clang_tidy w build_path fix w.content0
  match t.1 with
  | .error e => (.error e, t.2)
  | .ok tidyErrs =>
    let f := run_clang_format w fix t.2
    match f.1 with
    | .error e => (.error e, f.2)
    | .ok fmtErrs =>
      let errors := tidyErrs ++ fmtErrs
      (.ok (errors.isEmpty, errors), f.2)

/-- The diagnostics `run_linters` prints under the error banner (nothing is
printed from the error list when an exception aborted the run first). -/
def printed (w : World) (build_path : String) (fix : Bool) : List String :=
  match (run_linters w build_path fix).1 with
  | .ok (_, errs) => errs
  | .error _ => []

/-- The function `main()` from the script, after argument parsing: the process exit code
when the run completes, or the exception that escaped `run_linters` (which
aborts the interpreter with a traceback instead of a normal exit). -/
def main (w : World) (build_path : String) (fix : Bool) : Except String Nat :=
  match (run_linters w build_path fix).1 with
  | .error e => .error e
  | .ok (allOk, _) => .ok (if allOk then 0 else 1)

/-- The tidy phase of a run: per-file results in submission order, from the
initial file contents. -/
def tidy_phase (w : World) (build_path : String) (fix : Bool) :
    List (Path × Except String String) × (Path → Content) :=
  run_phase (fun src c => clang_tidy w src build_path fix c)
    (collect_sources w.tree ".cpp") w.content0

/-- The format phase of a run: per-file results in submission order, from
the contents the tidy phase left behind. -/
def fmt_phase (w : World) (build_path : String) (fix : Bool) :
    List (Path × Except String String) × (Path → Content) :=
  run_phase (fun src c => clang_format w src fix c)
    (collect_sources w.tree ".cpp" ++ collect_sources w.tree ".hpp")
    (tidy_phase w build_path fix).2

/-- A world in which no call that leaves the process raises: every read
succeeds and both binaries can always be launched. -/
def ExnFree (w : World) : Prop :=
  (∀ p, w.readErr p = none) ∧
  (∀ p args c, ∃ pr c1, w.tidyProc p args c = .ok (pr, c1)) ∧
  (∀ p args c, ∃ pr c1, w.fmtProc p args c = .ok (pr, c1))

/-- Decidable equality of `Except` values, so concrete runs can be settled
by `decide`. -/
instance {α β : Type} [DecidableEq α] [DecidableEq β] : DecidableEq (Except α β) := fun a b =>
  match a, b with
  | .ok x, .ok y => if h : x = y then isTrue (by rw [h]) else isFalse (by simp [h])
  | .error x, .error y => if h : x = y then isTrue (by rw [h]) else isFalse (by simp [h])
  | .ok _, .error _ => isFalse (by simp)
  | .error _, .ok _ => isFalse (by simp)

/-- The predicate `files_equal` decides exact equality of the two line lists. -/
theorem files_equal_iff (a b : Content) : files_equal a b = true ↔ a = b := by
  unfold files_equal
  constructor
  · intro h
    by_cases hl : a.length = b.length
    · rw [if_neg (by simp [hl])] at h
      rw [List.all_eq_true] at h
      apply List.ext_getElem hl
      intro i h1 h2
      have hi := h i (by simpa using h1)
      rw [List.getD_eq_getElem a "" h1, List.getD_eq_getElem b "" h2] at hi
      exact eq_of_beq hi
    · simp [hl] at h
  · intro h
    subst h
    simp

/-- Every node appears among its own entries, under its one-component
path. -/
theorem mem_entriesOf_self (e : FSNode) : ([e.name], e) ∈ entriesOf e := by
  cases e with
  | file n => rw [entriesOf, FSNode.name]; exact List.mem_singleton.mpr rfl
  | dir n cs => rw [entriesOf, FSNode.name]; exact List.mem_cons_self _ _

/-- Entries of a member node are entries of the forest. -/
theorem entriesOf_subset_forest {t : FSNode} {ts : List FSNode} (h : t ∈ ts) :
    ∀ x, x ∈ entriesOf t → x ∈ forestEntries ts := by
  induction ts with
  | nil => cases h
  | cons u us ih =>
    intro x hx
    rcases List.mem_cons.mp h with h1 | h2
    · subst h1
      exact List.mem_append_left _ hx
    · exact List.mem_append_right _ (ih h2 x hx)

/-- The relation `FoundAt` only depends on the sibling list through membership. -/
theorem foundAt_weaken {ts us : List FSNode} {p : Path} {e : FSNode}
    (h : FoundAt ts p e) (hsub : ∀ t ∈ ts, t ∈ us) : FoundAt us p e := by
  cases h with
  | here hm => exact FoundAt.here (hsub _ hm)
  | deeper hm hf => exact FoundAt.deeper (hsub _ hm) hf

/-- A path that resolves to an entry is listed by the recursive walk. -/
theorem mem_forest_of_foundAt {ts : List FSNode} {p : Path} {e : FSNode}
    (h : FoundAt ts p e) : (p, e) ∈ forestEntries ts := by
  induction h with
  | here hm => exact entriesOf_subset_forest hm _ (mem_entriesOf_self _)
  | deeper hm _ ih =>
    apply entriesOf_subset_forest hm
    simp only [entriesOf, List.mem_cons, List.mem_map]
    right
    exact ⟨_, ih, rfl⟩

mutual

/-- An entry listed by the walk of one node resolves from any sibling list
containing the node. -/
theorem foundAt_of_mem_entries : ∀ (t : FSNode) (p : Path) (e : FSNode),
    (p, e) ∈ entriesOf t → ∀ ts, t ∈ ts → FoundAt ts p e
  | .file n, p, e, h, ts, hm => by
    simp only [entriesOf, List.mem_singleton, Prod.mk.injEq] at h
    obtain ⟨h1, h2⟩ := h
    subst h1
    subst h2
    exact FoundAt.here (e := .file n) hm
  | .dir n cs, p, e, h, ts, hm => by
    simp only [entriesOf, List.mem_cons, List.mem_map, Prod.mk.injEq] at h
    rcases h with ⟨h1, h2⟩ | ⟨x, hx, hx1, hx2⟩
    · subst h1
      subst h2
      exact FoundAt.here (e := .dir n cs) hm
    · subst hx1
      subst hx2
      exact FoundAt.deeper hm (foundAt_of_mem_forest cs x.1 x.2 (by simpa using hx))

/-- An entry listed by the walk of a forest resolves from that forest. -/
theorem foundAt_of_mem_forest : ∀ (cs : List FSNode) (p : Path) (e : FSNode),
    (p, e) ∈ forestEntries cs → FoundAt cs p e
  | c :: cs, p, e, h => by
    rcases List.mem_append.mp h with h1 | h1
    · exact foundAt_of_mem_entries c p e h1 _ (List.mem_cons_self c cs)
    · exact foundAt_weaken (foundAt_of_mem_forest cs p e h1)
        (fun t ht => List.mem_cons_of_mem _ ht)

end

/-- The walk ↔ path-resolution correspondence. -/
theorem mem_forest_iff_foundAt {ts : List FSNode} {p : Path} {e : FSNode} :
    (p, e) ∈ forestEntries ts ↔ FoundAt ts p e :=
  ⟨foundAt_of_mem_forest ts p e, mem_forest_of_foundAt⟩

/-- A resolvable path is non-empty. -/
theorem foundAt_ne_nil {ts : List FSNode} {p : Path} {e : FSNode}
    (h : FoundAt ts p e) : p ≠ [] := by
  cases h <;> simp

/-- The test `contains` on the exclusion list is plain membership. -/
theorem exclude_contains_iff (n : String) :
    _EXCLUDE_DIRS.contains n = true ↔ n ∈ _EXCLUDE_DIRS := by
  simp [_EXCLUDE_DIRS]

/-- Characterization of `collect_sources`: a path is returned exactly when a
matching entry lies at it, directly under the root or below a non-excluded
immediate subdirectory. -/
theorem mem_collect_sources (ts : List FSNode) (file_ext : String) (p : Path) :
    p ∈ collect_sources ts file_ext ↔ SpecDiscovered ts file_ext p := by
  unfold collect_sources SpecDiscovered
  simp only [List.mem_append, List.mem_map, List.mem_filter, List.mem_flatMap,
    List.mem_filterMap]
  constructor
  · rintro (⟨e, ⟨he, hm⟩, rfl⟩ | ⟨d, ⟨hd, hdd⟩, x, hx, hxe⟩)
    · refine ⟨e, FoundAt.here he, hm, ?_⟩
      rintro n q hq hne
      cases hq
      cases hne rfl
    · have hdd1 : d.isDir = true ∧ (_EXCLUDE_DIRS.contains d.name) = false := by
        simpa using hdd
      cases d with
      | file m => cases hdd1.1
      | dir m cs =>
        have hnex : m ∉ _EXCLUDE_DIRS := by
          intro hmem
          have : (_EXCLUDE_DIRS.contains m) = true := exclude_contains_iff m |>.mpr hmem
          rw [show (FSNode.dir m cs).name = m from rfl] at hdd1
          rw [hdd1.2] at this
          cases this
        split at hxe
        case isFalse => cases hxe
        case isTrue hmx =>
          cases hxe
          refine ⟨x.2, FoundAt.deeper hd (foundAt_of_mem_forest cs x.1 x.2 hx), hmx, ?_⟩
          rintro n q hq hne
          cases hq
          exact hnex
  · rintro ⟨e, hf, hm, hcond⟩
    cases hf with
    | here he =>
      left
      exact ⟨e, ⟨he, hm⟩, rfl⟩
    | deeper hd hf1 =>
      right
      rename_i n cs q
      have hq : q ≠ [] := foundAt_ne_nil hf1
      have hnx : n ∉ _EXCLUDE_DIRS := hcond n q rfl hq
      refine ⟨FSNode.dir n cs, ⟨hd, ?_⟩, (q, e), mem_forest_of_foundAt hf1, ?_⟩
      · have : (_EXCLUDE_DIRS.contains n) = false := by
          rw [← Bool.not_eq_true]
          intro hcontra
          exact hnx (exclude_contains_iff n |>.mp hcontra)
        show (true && !(_EXCLUDE_DIRS.contains n)) = true
        rw [this]
        rfl
      · simp only [show (q, e).2 = e from rfl, show (q, e).1 = q from rfl, hm,
          if_pos, show (FSNode.dir n cs).name = n from rfl]

/-- The filtering `if r.get()` applies to one completed async result: keep
the output only when it is non-empty (an exception is kept by re-raising,
handled separately). -/
def okFilter (x : Path × Except String String) : Option String :=
  match x.2 with
  | .ok s => if s = "" then none else some s
  | .error _ => none

/-- A phase's results are paired with the submitted sources, in submission
order. -/
theorem run_phase_fst (task : Path → Content → Except String String × Content) :
    ∀ (srcs : List Path) (st : Path → Content),
      ((run_phase task srcs st).1).map Prod.fst = srcs := by
  intro srcs
  induction srcs with
  | nil => intro st; rfl
  | cons s rest ih => intro st; simp [run_phase, ih]

/-- If every task completes normally, so does every result of the phase. -/
theorem run_phase_ok {task : Path → Content → Except String String × Content}
    (h : ∀ src c, ∃ s, (task src c).1 = .ok s) :
    ∀ (srcs : List Path) (st : Path → Content),
      ∀ x ∈ (run_phase task srcs st).1, ∃ s, x.2 = .ok s := by
  intro srcs
  induction srcs with
  | nil => intro st x hx; cases hx
  | cons s rest ih =>
    intro st x hx
    rcases List.mem_cons.mp hx with h1 | h1
    · subst h1
      exact h s (st s)
    · exact ih _ x h1

/-- If no task changes its file's content, the phase leaves all contents
unchanged. -/
theorem run_phase_frame {task : Path → Content → Except String String × Content}
    (h : ∀ src c, (task src c).2 = c) :
    ∀ (srcs : List Path) (st : Path → Content) (p : Path),
      (run_phase task srcs st).2 p = st p := by
  intro srcs
  induction srcs with
  | nil => intro st p; rfl
  | cons s rest ih =>
    intro st p
    show (run_phase task rest _).2 p = st p
    rw [ih]
    by_cases hp : p = s
    · subst hp
      simp [h]
    · simp [hp]

/-- When every stored result is a normal completion, the collection neither
raises nor drops anything: it returns exactly the non-empty outputs, in
order. -/
theorem collect_results_eq :
    ∀ {rs : List (Path × Except String String)},
      (∀ x ∈ rs, ∃ s, x.2 = .ok s) →
      collect_results rs = .ok (rs.filterMap okFilter) := by
  intro rs
  induction rs with
  | nil => intro _; rfl
  | cons x rest ih =>
    intro h
    obtain ⟨s, hs⟩ := h x (List.mem_cons_self _ _)
    have hrest := ih (fun y hy => h y (List.mem_cons_of_mem _ hy))
    obtain ⟨p, r⟩ := x
    simp only at hs
    subst hs
    simp only [collect_results, hrest, List.filterMap_cons, okFilter]
    by_cases hemp : s = ""
    · simp [hemp]
    · simp [hemp]

/-- Conversely, a normal collection result means every stored result was a
normal completion and the collection is the ordered non-empty filter. -/
theorem collect_results_ok :
    ∀ {rs : List (Path × Except String String)} {l : List String},
      collect_results rs = .ok l →
      (∀ x ∈ rs, ∃ s, x.2 = .ok s) ∧ l = rs.filterMap okFilter := by
  intro rs
  induction rs with
  | nil =>
    intro l h
    refine ⟨fun x hx => absurd hx (List.not_mem_nil x), ?_⟩
    simpa [collect_results] using h.symm
  | cons x rest ih =>
    intro l h
    obtain ⟨p, r⟩ := x
    cases r with
    | error e => simp [collect_results] at h
    | ok s =>
      simp only [collect_results] at h
      cases hrest : collect_results rest with
      | error e => rw [hrest] at h; simp at h
      | ok l1 =>
        rw [hrest] at h
        simp only [Except.ok.injEq] at h
        obtain ⟨hall, hl1⟩ := ih hrest
        constructor
        · intro y hy
          rcases List.mem_cons.mp hy with h1 | h1
          · subst h1; exact ⟨s, rfl⟩
          · exact hall y h1
        · subst h
          simp only [List.filterMap_cons, okFilter]
          by_cases hemp : s = ""
          · simp [hemp, hl1]
          · simp [hemp, hl1]

/-- A concatenation of strings is empty only when both parts are. -/
theorem string_append_eq_empty {a b : String} : a ++ b = "" ↔ a = "" ∧ b = "" := by
  constructor
  · intro h
    have hd : a.data ++ b.data = [] := by
      have h1 := congrArg String.data h
      rwa [String.data_append] at h1
    rcases List.append_eq_nil.mp hd with ⟨ha, hb⟩
    exact ⟨String.ext ha, String.ext hb⟩
  · rintro ⟨ha, hb⟩
    rw [ha, hb]
    rfl

/-- The warning text is not the empty string. -/
theorem formatWarning_ne_empty : formatWarning ≠ "" := by decide

/-- When the launch succeeds, `clang_tidy` completes with the captured
standard output. -/
theorem clang_tidy_ok {w : World}
    (h2 : ∀ p args c, ∃ pr c1, w.tidyProc p args c = .ok (pr, c1))
    (bp : String) (fix : Bool) :
    ∀ src c, ∃ s, (clang_tidy w src bp fix c).1 = .ok s := by
  intro src c
  obtain ⟨pr, c1, hp⟩ := h2 src (tidy_args w bp fix src) c
  exact ⟨pr.stdout, by simp [clang_tidy, hp]⟩

/-- What `clang_format` returns when both reads and the launch succeed. -/
theorem clang_format_eq {w : World} {src : Path} {fix : Bool} {c : Content}
    {pr : ProcResult} {c1 : Content}
    (hre : w.readErr src = none)
    (hp : w.fmtProc src (format_args w fix src) c = .ok (pr, c1)) :
    clang_format w src fix c =
      (.ok (if !files_equal c1 c then
              (if pr.stderr ≠ "" then pr.stderr ++ "\n" else pr.stderr)
                ++ absStr w src ++ formatWarning
                ++ w.diff c c1 (relStr src) (relStr src)
            else pr.stderr), c1) := by
  simp [clang_format, read_file, hre, hp]

/-- When nothing raises, `clang_format` completes normally. -/
theorem clang_format_ok {w : World}
    (h1 : ∀ p, w.readErr p = none)
    (h3 : ∀ p args c, ∃ pr c1, w.fmtProc p args c = .ok (pr, c1))
    (fix : Bool) :
    ∀ src c, ∃ s, (clang_format w src fix c).1 = .ok s := by
  intro src c
  obtain ⟨pr, c1, hp⟩ := h3 src (format_args w fix src) c
  rw [clang_format_eq (h1 src) hp]
  exact ⟨_, rfl⟩

/-- The function `clang_format` reports nothing exactly when the checker wrote nothing to
standard error and the file content did not change. -/
theorem clang_format_empty_iff {w : World} {src : Path} {fix : Bool} {c : Content}
    {pr : ProcResult} {c1 : Content}
    (hre : w.readErr src = none)
    (hp : w.fmtProc src (format_args w fix src) c = .ok (pr, c1)) :
    ((clang_format w src fix c).1 = .ok "" ↔ pr.stderr = "" ∧ files_equal c1 c = true) := by
  rw [clang_format_eq hre hp]
  by_cases hf : files_equal c1 c = true
  · simp [hf]
  · have hf0 : files_equal c1 c = false := Bool.eq_false_iff.mpr hf
    rw [hf0]
    simp only [Bool.not_false, if_true, Bool.false_eq_true, and_false, iff_false]
    intro hcontra
    have h0 : ((if pr.stderr ≠ "" then pr.stderr ++ "\n" else pr.stderr)
        ++ absStr w src ++ formatWarning
        ++ w.diff c c1 (relStr src) (relStr src)) = "" := by
      simpa using hcontra
    have h1 := (string_append_eq_empty.mp h0).1
    have h2 := (string_append_eq_empty.mp h1).2
    exact formatWarning_ne_empty h2

/-- Under an exception-free world, `run_linters` completes: the error list
is the ordered concatenation of the non-empty tidy results and the
non-empty format results, and `all_ok` is its emptiness. -/
theorem run_linters_exnfree {w : World} (h : ExnFree w) (bp : String) (fix : Bool) :
    (run_linters w bp fix).1 =
      .ok (((tidy_phase w bp fix).1.filterMap okFilter ++
              (fmt_phase w bp fix).1.filterMap okFilter).isEmpty,
            (tidy_phase w bp fix).1.filterMap okFilter ++
              (fmt_phase w bp fix).1.filterMap okFilter) := by
  obtain ⟨hr, ht, hf⟩ := h
  have hT : collect_results (tidy_phase w bp fix).1 =
      .ok ((tidy_phase w bp fix).1.filterMap okFilter) :=
    collect_results_eq (run_phase_ok (clang_tidy_ok ht bp fix) _ _)
  have hF : collect_results (fmt_phase w bp fix).1 =
      .ok ((fmt_phase w bp fix).1.filterMap okFilter) :=
    collect_results_eq (run_phase_ok (clang_format_ok hr hf fix) _ _)
  have e1 : run_clang_tidy w bp fix w.content0
      = (collect_results (tidy_phase w bp fix).1, (tidy_phase w bp fix).2) := rfl
  have e2 : run_clang_format w fix (tidy_phase w bp fix).2
      = (collect_results (fmt_phase w bp fix).1, (fmt_phase w bp fix).2) := rfl
  simp only [run_linters, e1, e2, hT, hF]

/-- Under an exception-free world, the exit code only tests emptiness of the
collected error list. -/
theorem main_exnfree {w : World} (h : ExnFree w) (bp : String) (fix : Bool) :
    main w bp fix =
      .ok (if ((tidy_phase w bp fix).1.filterMap okFilter ++
                (fmt_phase w bp fix).1.filterMap okFilter).isEmpty then 0 else 1) := by
  simp only [main, run_linters_exnfree h bp fix]

/-- Under an exception-free world, exactly the collected error list is
printed. -/
theorem printed_exnfree {w : World} (h : ExnFree w) (bp : String) (fix : Bool) :
    printed w bp fix =
      (tidy_phase w bp fix).1.filterMap okFilter ++
        (fmt_phase w bp fix).1.filterMap okFilter := by
  simp only [printed, run_linters_exnfree h bp fix]

/-- For a result list without stored exceptions, the collection is empty
exactly when every result is the empty output. -/
theorem filterMap_okFilter_eq_nil {T : List (Path × Except String String)}
    (hok : ∀ x ∈ T, ∃ s, x.2 = .ok s) :
    (T.filterMap okFilter = [] ↔ ∀ x ∈ T, x.2 = .ok "") := by
  rw [List.filterMap_eq_nil_iff]
  constructor
  · intro h x hx
    obtain ⟨s, hs⟩ := hok x hx
    have h1 := h x hx
    obtain ⟨p, r⟩ := x
    simp only at hs
    subst hs
    simp only [okFilter] at h1
    by_cases hemp : s = ""
    · rw [hemp]
    · simp [hemp] at h1
  · intro h x hx
    have h1 := h x hx
    obtain ⟨p, r⟩ := x
    simp only at h1
    subst h1
    simp [okFilter]

/-- C1: for every run that completes (no call out of the process raises),
the process exits with code 0 iff no invocation produced a non-empty
diagnostic — for `clang-tidy` an empty captured stdout, for `clang-format`
an empty captured stderr together with unchanged file content; otherwise it
exits with code 1 and the printed output is exactly the ordered list of the
collected non-empty diagnostics. -/
theorem exit_zero_iff_all_clean (w : World) (bp : String) (fix : Bool) (h : ExnFree w) :
    (main w bp fix = .ok 0 ↔
      ((∀ x ∈ (tidy_phase w bp fix).1, x.2 = .ok "") ∧
       (∀ x ∈ (fmt_phase w bp fix).1, x.2 = .ok ""))) ∧
    (main w bp fix = .ok 0 ∨
      (main w bp fix = .ok 1 ∧
        printed w bp fix =
          (tidy_phase w bp fix).1.filterMap okFilter ++
            (fmt_phase w bp fix).1.filterMap okFilter)) ∧
    (∀ src c pr c1, w.tidyProc src (tidy_args w bp fix src) c = .ok (pr, c1) →
      ((clang_tidy w src bp fix c).1 = .ok "" ↔ pr.stdout = "")) ∧
    (∀ src c pr c1, w.fmtProc src (format_args w fix src) c = .ok (pr, c1) →
      ((clang_format w src fix c).1 = .ok "" ↔
        pr.stderr = "" ∧ files_equal c1 c = true)) := by
  have hTok : ∀ x ∈ (tidy_phase w bp fix).1, ∃ s, x.2 = .ok s :=
    run_phase_ok (clang_tidy_ok h.2.1 bp fix) _ _
  have hFok : ∀ x ∈ (fmt_phase w bp fix).1, ∃ s, x.2 = .ok s :=
    run_phase_ok (clang_format_ok h.1 h.2.2 fix) _ _
  refine ⟨?_, ?_, ?_, ?_⟩
  · rw [main_exnfree h bp fix]
    constructor
    · intro h0
      have hemp : ((tidy_phase w bp fix).1.filterMap okFilter ++
          (fmt_phase w bp fix).1.filterMap okFilter).isEmpty = true := by
        by_contra hc
        rw [Bool.eq_false_iff.mpr hc] at h0
        simp at h0
      rw [List.isEmpty_iff, List.append_eq_nil] at hemp
      exact ⟨(filterMap_okFilter_eq_nil hTok).mp hemp.1,
        (filterMap_okFilter_eq_nil hFok).mp hemp.2⟩
    · rintro ⟨h1, h2⟩
      have e1 := (filterMap_okFilter_eq_nil hTok).mpr h1
      have e2 := (filterMap_okFilter_eq_nil hFok).mpr h2
      rw [e1, e2]
      rfl
  · rw [main_exnfree h bp fix, printed_exnfree h bp fix]
    by_cases hemp : ((tidy_phase w bp fix).1.filterMap okFilter ++
        (fmt_phase w bp fix).1.filterMap okFilter).isEmpty = true
    · left
      rw [hemp]
      rfl
    · right
      rw [Bool.eq_false_iff.mpr hemp]
      exact ⟨rfl, rfl⟩
  · intro src c pr c1 hp
    simp [clang_tidy, hp]
  · intro src c pr c1 hp
    exact clang_format_empty_iff (h.1 src) hp

/-- A concrete world with two clean files: reads succeed, both binaries
complete silently without touching the file. -/
def wClean : World :=
  { tree := [FSNode.file "a.cpp", FSNode.file "b.hpp"]
    srcDir := "/repo/src"
    content0 := fun _ => ["int x;\n"]
    readErr := fun _ => none
    tidyProc := fun _ _ c => .ok (⟨"", "", 0⟩, c)
    fmtProc := fun _ _ c => .ok (⟨"", "", 0⟩, c)
    diff := fun _ _ _ _ => "" }

theorem exit_zero_iff_all_clean_wit : main wClean "build" false = Except.ok 0 :=
  ((exit_zero_iff_all_clean wClean "build" false
      ⟨fun _ => rfl,
       fun _ _ c => ⟨⟨"", "", 0⟩, c, rfl⟩,
       fun _ _ c => ⟨⟨"", "", 0⟩, c, rfl⟩⟩).1).mpr (by decide)

/-- Exit code 0 forces both collections to have completed with an empty
error list. -/
theorem main_ok_zero_inv {w : World} {bp : String} {fix : Bool}
    (h : main w bp fix = .ok 0) :
    collect_results (tidy_phase w bp fix).1 = .ok [] ∧
    collect_results (fmt_phase w bp fix).1 = .ok [] := by
  have e1 : run_clang_tidy w bp fix w.content0
      = (collect_results (tidy_phase w bp fix).1, (tidy_phase w bp fix).2) := rfl
  have e2 : run_clang_format w fix (tidy_phase w bp fix).2
      = (collect_results (fmt_phase w bp fix).1, (fmt_phase w bp fix).2) := rfl
  simp only [main, run_linters, e1, e2] at h
  cases hT : collect_results (tidy_phase w bp fix).1 with
  | error e => rw [hT] at h; simp at h
  | ok tl =>
    rw [hT] at h
    cases hF : collect_results (fmt_phase w bp fix).1 with
    | error e => rw [hF] at h; simp at h
    | ok fl =>
      rw [hF] at h
      simp only [Except.ok.injEq] at h
      by_cases hemp : (tl ++ fl).isEmpty = true
      · rw [List.isEmpty_iff, List.append_eq_nil] at hemp
        exact ⟨by rw [hemp.1], by rw [hemp.2]⟩
      · rw [Bool.eq_false_iff.mpr hemp] at h
        simp at h

/-- C7: a non-empty diagnostic from any invocation makes the run fail, and
the run still performs one invocation per submitted (file, checker) task —
the tidy phase covers every discovered `.cpp` file and the format phase
every discovered `.cpp` and `.hpp` file, whatever the diagnostics were. -/
theorem no_abort_on_diagnostics (w : World) (bp : String) (fix : Bool) :
    (∀ s, s ≠ "" →
      ((∃ x ∈ (tidy_phase w bp fix).1, x.2 = .ok s) ∨
       (∃ x ∈ (fmt_phase w bp fix).1, x.2 = .ok s)) →
      main w bp fix ≠ .ok 0) ∧
    ((tidy_phase w bp fix).1.map Prod.fst = collect_sources w.tree ".cpp") ∧
    ((fmt_phase w bp fix).1.map Prod.fst =
      collect_sources w.tree ".cpp" ++ collect_sources w.tree ".hpp") := by
  refine ⟨?_, run_phase_fst _ _ _, run_phase_fst _ _ _⟩
  intro s hs hx hmain
  obtain ⟨hT0, hF0⟩ := main_ok_zero_inv hmain
  have hnone : ∀ {T : List (Path × Except String String)},
      collect_results T = .ok [] → ∀ x ∈ T, x.2 ≠ .ok s := by
    intro T hc x hxm hxe
    have h2 := (collect_results_ok hc).2
    have h3 := List.filterMap_eq_nil_iff.mp h2.symm x hxm
    obtain ⟨p, r⟩ := x
    simp only at hxe
    subst hxe
    simp [okFilter, hs] at h3
  rcases hx with ⟨x, hxm, hxe⟩ | ⟨x, hxm, hxe⟩
  · exact hnone hT0 x hxm hxe
  · exact hnone hF0 x hxm hxe

/-- A concrete world where `clang-tidy` reports a warning on every file (and
exits non-zero), while `clang-format` stays silent. -/
def wWarn : World :=
  { wClean with tidyProc := fun _ _ c => .ok (⟨"tidy-warn", "", 1⟩, c) }

theorem no_abort_on_diagnostics_wit : main wWarn "build" false ≠ Except.ok 0 :=
  (no_abort_on_diagnostics wWarn "build" false).1 "tidy-warn" (by decide)
    (Or.inl (by decide))

/-- C8: when both collections complete, each checker's reported errors are
exactly the non-empty results in submission order — the discovered file
list restricted to files with non-empty output — and the printed error list
is the tidy list followed by the format list. -/
theorem results_in_submission_order (w : World) (bp : String) (fix : Bool)
    (tl fl : List String)
    (h1 : (run_clang_tidy w bp fix w.content0).1 = .ok tl)
    (h2 : (run_clang_format w fix (tidy_phase w bp fix).2).1 = .ok fl) :
    tl = (tidy_phase w bp fix).1.filterMap okFilter ∧
    fl = (fmt_phase w bp fix).1.filterMap okFilter ∧
    printed w bp fix = tl ++ fl ∧
    (tidy_phase w bp fix).1.map Prod.fst = collect_sources w.tree ".cpp" ∧
    (fmt_phase w bp fix).1.map Prod.fst =
      collect_sources w.tree ".cpp" ++ collect_sources w.tree ".hpp" := by
  have e1 : run_clang_tidy w bp fix w.content0
      = (collect_results (tidy_phase w bp fix).1, (tidy_phase w bp fix).2) := rfl
  have e2 : run_clang_format w fix (tidy_phase w bp fix).2
      = (collect_results (fmt_phase w bp fix).1, (fmt_phase w bp fix).2) := rfl
  have hT : collect_results (tidy_phase w bp fix).1 = .ok tl := by
    rw [e1] at h1
    exact h1
  have hF : collect_results (fmt_phase w bp fix).1 = .ok fl := by
    rw [e2] at h2
    exact h2
  refine ⟨(collect_results_ok hT).2, (collect_results_ok hF).2, ?_,
    run_phase_fst _ _ _, run_phase_fst _ _ _⟩
  simp only [printed, run_linters, e1, e2, hT, hF]

theorem results_in_submission_order_wit :
    printed wWarn "build" false = ["tidy-warn"] ++ [] :=
  (results_in_submission_order wWarn "build" false ["tidy-warn"] []
    (by decide) (by decide)).2.2.1

/-- C10: the static-analysis phase is invoked exactly on the discovered
`.cpp` files, the style phase on the discovered `.cpp` files followed by
the discovered `.hpp` files: two separately built task sets. -/
theorem task_sets (w : World) (bp : String) (fix : Bool) :
    (tidy_phase w bp fix).1.map Prod.fst = collect_sources w.tree ".cpp" ∧
    (fmt_phase w bp fix).1.map Prod.fst =
      collect_sources w.tree ".cpp" ++ collect_sources w.tree ".hpp" :=
  ⟨run_phase_fst _ _ _, run_phase_fst _ _ _⟩

/-- C9: the checker's exit status never enters the pass/fail decision: a
`clang-tidy` launch with empty captured stdout, and a `clang-format` launch
with empty captured stderr and unchanged content, yield the empty
diagnostic whatever `returncode` was, and an empty diagnostic is dropped by
the result collection. -/
theorem returncode_ignored (w : World) (bp : String) (fix : Bool) (src : Path) (c : Content) :
    (∀ pr c1, w.tidyProc src (tidy_args w bp fix src) c = .ok (pr, c1) →
      pr.stdout = "" → (clang_tidy w src bp fix c).1 = .ok "") ∧
    (∀ pr c1, w.readErr src = none →
      w.fmtProc src (format_args w fix src) c = .ok (pr, c1) →
      pr.stderr = "" → files_equal c1 c = true →
      (clang_format w src fix c).1 = .ok "") ∧
    (∀ p rs, collect_results ((p, Except.ok "") :: rs) = collect_results rs) := by
  refine ⟨?_, ?_, ?_⟩
  · intro pr c1 hp h0
    simp [clang_tidy, hp, h0]
  · intro pr c1 hre hp h0 hfe
    exact (clang_format_empty_iff hre hp).mpr ⟨h0, hfe⟩
  · intro p rs
    cases h : collect_results rs with
    | error e => simp [collect_results, h]
    | ok l => simp [collect_results, h]

/-- A concrete world whose checkers find nothing yet exit with non-zero
status codes. -/
def wRC : World :=
  { wClean with
    tidyProc := fun _ _ c => .ok (⟨"", "", 3⟩, c)
    fmtProc := fun _ _ c => .ok (⟨"", "", 5⟩, c) }

theorem returncode_ignored_wit :
    (clang_tidy wRC ["a.cpp"] "build" false ["int x;\n"]).1 = Except.ok "" ∧
    (clang_format wRC ["a.cpp"] false ["int x;\n"]).1 = Except.ok "" :=
  ⟨(returncode_ignored wRC "build" false ["a.cpp"] ["int x;\n"]).1
      ⟨"", "", 3⟩ ["int x;\n"] rfl rfl,
   (returncode_ignored wRC "build" false ["a.cpp"] ["int x;\n"]).2.1
      ⟨"", "", 5⟩ ["int x;\n"] rfl rfl rfl (by decide)⟩

/-- The dry-run contract of the style checker: launched with
`--dry-run` (and not `-i`), it never rewrites the file. -/
def DryRunContract (w : World) : Prop :=
  ∀ src rest c pr c1,
    w.fmtProc src (["clang-format", "-Werror", "--dry-run"] ++ rest) c = .ok (pr, c1) →
    c1 = c

/-- The no-fix contract of the static-analysis tool: launched without its
`--fix` flag (the four-argument command line the script builds when fix-mode
is off), it never rewrites the file. -/
def NoFixContract (w : World) : Prop :=
  ∀ src bp file c pr c1,
    w.tidyProc src (["clang-tidy", "-p", bp, file]) c = .ok (pr, c1) →
    c1 = c

/-- C6: with fix-mode off the script passes `--dry-run` (not `-i`) to the
style checker and omits `--fix` from the static-analysis command line, and
under the two tools' documented dry-run contracts the whole run leaves
every file's content exactly as it was. -/
theorem no_fix_mode_frame (w : World) (bp : String)
    (h1 : DryRunContract w) (h2 : NoFixContract w) :
    (∀ src, tidy_args w bp false src = ["clang-tidy", "-p", bp, absStr w src]) ∧
    (∀ src, format_args w false src = ["clang-format", "-Werror", "--dry-run", absStr w src]) ∧
    (∀ p, (run_linters w bp false).2 p = w.content0 p) := by
  have ht : ∀ src c, (clang_tidy w src bp false c).2 = c := by
    intro src c
    unfold clang_tidy
    cases hp : w.tidyProc src (tidy_args w bp false src) c with
    | error e => rfl
    | ok x =>
      obtain ⟨pr, c1⟩ := x
      have hc := h2 src bp (absStr w src) c pr c1 hp
      rw [hc]
  have hf : ∀ src c, (clang_format w src false c).2 = c := by
    intro src c
    unfold clang_format
    cases hre : w.readErr src with
    | some e => simp [read_file, hre]
    | none =>
      simp only [read_file, hre]
      cases hp : w.fmtProc src (format_args w false src) c with
      | error e => rfl
      | ok x =>
        obtain ⟨pr, c1⟩ := x
        have hc := h1 src [absStr w src] c pr c1 hp
        rw [hc]
  refine ⟨fun src => rfl, fun src => rfl, ?_⟩
  intro p
  have e1 : run_clang_tidy w bp false w.content0
      = (collect_results (tidy_phase w bp false).1, (tidy_phase w bp false).2) := rfl
  have e2 : run_clang_format w false (tidy_phase w bp false).2
      = (collect_results (fmt_phase w bp false).1, (fmt_phase w bp false).2) := rfl
  have hstT : (tidy_phase w bp false).2 p = w.content0 p := run_phase_frame ht _ _ p
  have hstF : (fmt_phase w bp false).2 p = w.content0 p := by
    have h3 : (fmt_phase w bp false).2 p = (tidy_phase w bp false).2 p :=
      run_phase_frame hf _ _ p
    rw [h3]
    exact hstT
  simp only [run_linters, e1, e2]
  cases hT : collect_results (tidy_phase w bp false).1 with
  | error e => exact hstT
  | ok tl =>
    cases hF : collect_results (fmt_phase w bp false).1 with
    | error e => exact hstF
    | ok fl => exact hstF

theorem no_fix_mode_frame_wit :
    (run_linters wClean "build" false).2 ["a.cpp"] = wClean.content0 ["a.cpp"] :=
  (no_fix_mode_frame wClean "build"
    (fun _ _ _ _ _ hp => ((Prod.ext_iff.mp (Except.ok.inj hp)).2).symm)
    (fun _ _ _ _ _ _ hp => ((Prod.ext_iff.mp (Except.ok.inj hp)).2).symm)).2.2
    ["a.cpp"]

/-- C2 as stated is false: a `.cpp` file lying below a `third_party`
directory that is nested one level deeper (under `foo/`) sits under a
subdirectory with an excluded name, yet discovery returns it. -/
theorem exclusion_any_depth_cex :
    ["foo", "third_party", "b.cpp"] ∈
      collect_sources [FSNode.dir "foo" [FSNode.dir "third_party" [FSNode.file "b.cpp"]]] ".cpp" ∧
    FoundAt [FSNode.dir "foo" [FSNode.dir "third_party" [FSNode.file "b.cpp"]]]
      ["foo", "third_party", "b.cpp"] (FSNode.file "b.cpp") ∧
    "third_party" ∈ ["foo", "third_party", "b.cpp"].dropLast := by
  refine ⟨by decide, ?_, by decide⟩
  exact FoundAt.deeper (List.mem_singleton.mpr rfl)
    (FoundAt.deeper (List.mem_singleton.mpr rfl)
      (FoundAt.here (e := FSNode.file "b.cpp") (List.mem_singleton.mpr rfl)))

/-- C2 amended: exclusion is applied only to immediate subdirectories of
the root — no path starting with an excluded name (other than a single
top-level entry) is ever returned, while every matching entry whose path
does not start with an excluded name is returned. -/
theorem exclusion_top_level_only (ts : List FSNode) (file_ext : String) :
    (∀ (n : String) (q : Path),
      n ∈ _EXCLUDE_DIRS → q ≠ [] → n :: q ∉ collect_sources ts file_ext) ∧
    (∀ (p : Path) (e : FSNode),
      FoundAt ts p e → extMatches file_ext e.name = true →
      (∀ n q, p = n :: q → q ≠ [] → n ∉ _EXCLUDE_DIRS) →
      p ∈ collect_sources ts file_ext) := by
  constructor
  · intro n q hn hq hmem
    obtain ⟨e, _, _, hcond⟩ := (mem_collect_sources ts file_ext (n :: q)).mp hmem
    exact hcond n q rfl hq hn
  · intro p e hf hm hcond
    exact (mem_collect_sources ts file_ext p).mpr ⟨e, hf, hm, hcond⟩

theorem exclusion_top_level_only_wit :
    ["third_party", "b.cpp"] ∉
      collect_sources [FSNode.dir "third_party" [FSNode.file "b.cpp"]] ".cpp" :=
  (exclusion_top_level_only [FSNode.dir "third_party" [FSNode.file "b.cpp"]] ".cpp").1
    "third_party" ["b.cpp"] (by decide) (by decide)

/-- C3 as stated ("paths of files") is false: a directory whose name ends in
the extension is globbed and returned even though no file lies at that
path. -/
theorem discovery_files_only_cex :
    ["a.cpp"] ∈ collect_sources [FSNode.dir "a.cpp" []] ".cpp" ∧
    ∀ e, FoundAt [FSNode.dir "a.cpp" []] ["a.cpp"] e → e.isDir = true := by
  refine ⟨by decide, ?_⟩
  intro e h
  have hm := mem_forest_of_foundAt h
  simp only [forestEntries, entriesOf, List.map_nil, List.append_nil,
    List.mem_singleton, Prod.mk.injEq] at hm
  rw [hm.2]
  rfl

/-- C3 amended ("files" → "entries"): discovery returns exactly the paths of
entries whose names match the extension pattern that lie directly under the
root or recursively under a non-excluded immediate subdirectory; exclusion
acts by name at the top level only. -/
theorem discovery_exact (ts : List FSNode) (file_ext : String) (p : Path) :
    p ∈ collect_sources ts file_ext ↔ SpecDiscovered ts file_ext p :=
  mem_collect_sources ts file_ext p

/-- A concrete world in which `clang-format` writes a diagnostic to stderr
yet leaves the file byte-for-byte unchanged. -/
def wErrNoChange : World :=
  { wClean with
    fmtProc := fun _ _ c => .ok (⟨"", "fmt-err", 1⟩, c)
    diff := fun _ _ _ _ => "DIFFTEXT" }

/-- C4 as stated is false: the checker emitted error output but the content
did not change, and the result is exactly the stderr text — it does not
contain the diff (`difflib` output, here `DIFFTEXT`) at all. -/
theorem format_no_diff_cex :
    wErrNoChange.fmtProc ["a.cpp"] (format_args wErrNoChange false ["a.cpp"]) ["int x;\n"]
        = Except.ok (⟨"", "fmt-err", 1⟩, ["int x;\n"]) ∧
    ("fmt-err" : String) ≠ "" ∧
    (clang_format wErrNoChange ["a.cpp"] false ["int x;\n"]).1 = Except.ok "fmt-err" ∧
    ¬ ((wErrNoChange.diff ["int x;\n"] ["int x;\n"] (relStr ["a.cpp"]) (relStr ["a.cpp"])).data
        <:+: "fmt-err".data) := by
  refine ⟨rfl, by decide, by decide, ?_⟩
  intro h
  have h2 := h.length_le
  revert h2
  decide

/-- C4 amended: when the content changed, the result is stderr (newline
separated when non-empty) followed by the warning line and the line-level
diff; when the content is unchanged, the result is exactly the checker's
stderr, with no diff; the result is empty iff stderr was empty and the
content unchanged. -/
theorem format_report (w : World) (src : Path) (fix : Bool) (c : Content)
    (pr : ProcResult) (c1 : Content)
    (hre : w.readErr src = none)
    (hp : w.fmtProc src (format_args w fix src) c = .ok (pr, c1)) :
    (files_equal c1 c = false →
      (clang_format w src fix c).1 =
        .ok ((if pr.stderr ≠ "" then pr.stderr ++ "\n" else pr.stderr)
          ++ absStr w src ++ formatWarning
          ++ w.diff c c1 (relStr src) (relStr src))) ∧
    (files_equal c1 c = true → (clang_format w src fix c).1 = .ok pr.stderr) ∧
    ((clang_format w src fix c).1 = .ok "" ↔ pr.stderr = "" ∧ files_equal c1 c = true) := by
  refine ⟨?_, ?_, clang_format_empty_iff hre hp⟩
  · intro hf
    rw [clang_format_eq hre hp]
    simp [hf]
  · intro hf
    rw [clang_format_eq hre hp]
    simp [hf]

/-- A concrete world in which `clang-format` silently rewrites the file. -/
def wFmtFix : World :=
  { wClean with
    fmtProc := fun _ _ _ => .ok (⟨"", "", 0⟩, ["fixed\n"])
    diff := fun _ _ _ _ => "DIFFTEXT" }

theorem format_report_wit :
    (clang_format wFmtFix ["a.cpp"] false ["int x;\n"]).1 =
      Except.ok ((if ("" : String) ≠ "" then "" ++ "\n" else "")
        ++ absStr wFmtFix ["a.cpp"] ++ formatWarning
        ++ wFmtFix.diff ["int x;\n"] ["fixed\n"] (relStr ["a.cpp"]) (relStr ["a.cpp"])) :=
  (format_report wFmtFix ["a.cpp"] false ["int x;\n"] ⟨"", "", 0⟩ ["fixed\n"]
    rfl rfl).1 (by decide)

/-- A concrete world where launching `clang-tidy` raises (e.g. the binary is
not installed). -/
def wBoom : World :=
  { wClean with tidyProc := fun _ _ _ => .error "boom" }

/-- C5 as stated is false: an exception raised inside a single file's check
(here: `subprocess.run` raising while launching `clang-tidy` on `a.cpp`)
escapes `run_linters` and aborts the run; nothing reaches the aggregated
error list that gets printed. -/
theorem exception_aborts_cex :
    main wBoom "build" false = Except.error "boom" ∧
    printed wBoom "build" false = [] := by decide

/-- C5 amended: an exception stored by a task is re-raised when its phase's
results are collected, and it then escapes `run_linters` and `main` instead
of surfacing in the aggregated error list. -/
theorem exception_propagation (w : World) (bp : String) (fix : Bool) (e : String) :
    ((run_clang_tidy w bp fix w.content0).1 = .error e → main w bp fix = .error e) ∧
    (∀ tl, (run_clang_tidy w bp fix w.content0).1 = .ok tl →
      (run_clang_format w fix (tidy_phase w bp fix).2).1 = .error e →
      main w bp fix = .error e) := by
  have e1 : run_clang_tidy w bp fix w.content0
      = (collect_results (tidy_phase w bp fix).1, (tidy_phase w bp fix).2) := rfl
  have e2 : run_clang_format w fix (tidy_phase w bp fix).2
      = (collect_results (fmt_phase w bp fix).1, (fmt_phase w bp fix).2) := rfl
  constructor
  · intro hT
    rw [e1] at hT
    simp only [main, run_linters, e1, e2, hT]
  · intro tl hT hF
    rw [e1] at hT
    rw [e2] at hF
    simp only [main, run_linters, e1, e2, hT, hF]

/-- A concrete world where launching `clang-format` raises. -/
def wBoomF : World :=
  { wClean with fmtProc := fun _ _ _ => .error "fmt-boom" }

theorem exception_propagation_wit :
    main wBoomF "build" false = Except.error "fmt-boom" :=
  (exception_propagation wBoomF "build" false "fmt-boom").2 []
    (by decide) (by decide)

end RunLinters
